import Mathlib

/-!
Verification of the asset_us trading system core against its specification.

The development shallowly embeds the decision logic of the repository:
  * `services/order_service.py`   — sizing, buy/sell execution, stop loss;
  * `services/monitor_service.py` — entry guards, unit sizing, close-of-day logic;
  * `services/lot_service.py`     — daily lot construction and LIFO reduction.

Python `Decimal`/`float` arithmetic is modelled with `ℚ`, dates with `ℤ`
(day numbers), database rows with Lean structures, and the database tables
with lists of rows.  Fallible external calls are modelled as `Option`-valued
inputs.  Definitions follow the Python source line by line; theorems settle
the frozen claims about the specification.
-/

namespace AssetUS

/-- Python `round`: round a rational to the nearest integer, ties to even. -/
def pyRound (q : ℚ) : ℤ :=
  let f : ℤ := ⌊q⌋
  let frac : ℚ := q - (f : ℚ)
  if frac < 1/2 then f
  else if 1/2 < frac then f + 1
  else if f % 2 = 0 then f else f + 1

/-- Python `round(x, 2)`: round to two decimal places (ties to even). -/
def round2 (q : ℚ) : ℚ := (pyRound (q * 100) : ℚ) / 100

/-! ## Order service (`services/order_service.py`) -/

/-- `OrderService.add_price_buffer`: add a percentage buffer to a buy price,
rounded to 2 decimals. -/
def add_price_buffer (price bufferPct : ℚ) : ℚ :=
  round2 (price * (1 + bufferPct / 100))

/-- `OrderService.subtract_price_buffer`: subtract a percentage buffer from a
sell price, rounded to 2 decimals. -/
def subtract_price_buffer (price bufferPct : ℚ) : ℚ :=
  round2 (price * (1 - bufferPct / 100))

/-- `OrderService.calculate_shares`: number of shares for one half-unit buy:
`max(round(half_unit_amount / price), 1)`. -/
def calculate_shares (halfUnitAmount price : ℚ) : ℤ :=
  max (pyRound (halfUnitAmount / price)) 1

/-- A buy order as submitted to the broker client. -/
structure BuyOrder where
  symbol : String
  shares : ℤ
  price : ℚ
  deriving DecidableEq, Repr

/-- Core of `OrderService.execute_buy`: buffer the (real-time) price, size the
order, and submit unless the computed share count is non-positive
("insufficient capital" branch). -/
def execute_buy (symbol : String) (halfUnitAmount currentPrice : ℚ) :
    Option BuyOrder :=
  let buyPrice := add_price_buffer currentPrice (1/2)
  let shares := calculate_shares halfUnitAmount buyPrice
  if shares ≤ 0 then none
  else some ⟨symbol, shares, buyPrice⟩

/-- The position fields `execute_sell` reads. -/
structure SellPos where
  symbol : String
  quantity : ℤ
  entry_price : ℚ
  deriving DecidableEq, Repr

/-- A sell order as submitted to the broker client. -/
structure SellOrder where
  symbol : String
  quantity : ℤ
  price : ℚ
  deriving DecidableEq, Repr

/-- Core of `OrderService.execute_sell`: no position or empty position aborts;
a reported sellable quantity ≤ 0 aborts; a reported sellable quantity below the
position quantity caps the order; an unavailable report (API exception) falls
back to the position quantity.  `realTimePrice = none` models a failed
real-time quote (fall back to the passed price). -/
def execute_sell (pos : Option SellPos) (sellable : Option ℤ)
    (realTimePrice : Option ℚ) (passedPrice : ℚ) : Option SellOrder :=
  match pos with
  | none => none
  | some p =>
    if p.quantity ≤ 0 then none
    else
      let current := realTimePrice.getD passedPrice
      let sellPrice := subtract_price_buffer current (1/2)
      match sellable with
      | some s =>
        if s ≤ 0 then none
        else
          let qty := if s < p.quantity then s else p.quantity
          some ⟨p.symbol, qty, sellPrice⟩
      | none => some ⟨p.symbol, p.quantity, sellPrice⟩

/-- The position fields `check_stop_loss` reads. -/
structure SLPos where
  status : String
  entry_price : ℚ
  stop_loss_pct : ℚ
  deriving DecidableEq, Repr

/-- `OrderService.check_stop_loss`: triggered when the percentage change from
entry is at most `-stop_loss_pct`. -/
def check_stop_loss (pos : Option SLPos) (currentPrice : ℚ) : Bool :=
  match pos with
  | none => false
  | some p =>
    if p.status ≠ "open" then false
    else if p.entry_price ≤ 0 then false
    else decide ((currentPrice / p.entry_price - 1) * 100 ≤ -p.stop_loss_pct)

/-! ## Monitor service: entry guards (`services/monitor_service.py`) -/

/-- `MonitorService.check_breakout_entry`: unit-cap check, then the three
duplicate-buy guards (in-memory trigger count, broker API two-day buy log,
durable trade store), then the price test `last ≥ target`. -/
def check_breakout_entry (currentUnits maxUnits : ℚ) (triggerCount : ℕ)
    (apiBuy dbBuy : Bool) (priceLast : Option ℚ) (targetPrice : ℚ) : Bool :=
  if maxUnits ≤ currentUnits then false
  else if 1 ≤ triggerCount then false
  else if apiBuy then false
  else if dbBuy then false
  else
    match priceLast with
    | none => false
    | some last => decide (targetPrice ≤ last)

/-- `MonitorService.check_gap_up_entry`: same guards, price test on the
session open `open ≥ target`. -/
def check_gap_up_entry (currentUnits maxUnits : ℚ) (triggerCount : ℕ)
    (apiBuy dbBuy : Bool) (priceOpen : Option ℚ) (targetPrice : ℚ) : Bool :=
  if maxUnits ≤ currentUnits then false
  else if 1 ≤ triggerCount then false
  else if apiBuy then false
  else if dbBuy then false
  else
    match priceOpen with
    | none => false
    | some o => decide (targetPrice ≤ o)

/-! ## Monitor service: unit sizing -/

/-- `MonitorService.get_total_assets`: return the cached value when positive
and no refresh is forced; otherwise recompute cash + holdings evaluation,
updating the cache only when the recomputed total is positive. -/
def get_total_assets (cached : ℚ) (forceRefresh : Bool) (cash evltSum : ℚ) : ℚ :=
  if 0 < cached ∧ forceRefresh = false then cached
  else
    let total := cash + evltSum
    if 0 < total then total else cached

/-- Third fallback of `get_current_units_held`: locally tracked open position
(`quantity * entry_price` purchase cost). -/
def units_fallback_pos (unitValue : ℚ) (posCost : Option ℚ) : ℚ :=
  match posCost with
  | some pc => if 0 < unitValue then pc / unitValue else 0
  | none => 0

/-- Second fallback of `get_current_units_held`: summed `total_cost` of open
daily lots (a zero/NULL sum falls through, mirroring Python truthiness). -/
def units_fallback_lots (unitValue : ℚ) (lotsCost posCost : Option ℚ) : ℚ :=
  match lotsCost with
  | some t => if t = 0 then units_fallback_pos unitValue posCost else t / unitValue
  | none => units_fallback_pos unitValue posCost

/-- `MonitorService.get_current_units_held`: units held computed from the
holdings feed's purchase amount `pur_amt` (falling back to lot cost, then the
local position cache) divided by the unit value (5% of total assets).  A zero
or NULL `pur_amt` is falsy in Python and falls through to the fallbacks. -/
def get_current_units_held (totalAssets : ℚ) (purAmt lotsCost posCost : Option ℚ) : ℚ :=
  if totalAssets ≤ 0 then 0
  else
    let unitValue := totalAssets * (5 / 100)
    match purAmt with
    | some p => if p = 0 then units_fallback_lots unitValue lotsCost posCost
                else p / unitValue
    | none => units_fallback_lots unitValue lotsCost posCost

/-- One evaluation of units held: `get_current_units_held` applied to the
total assets computed by `get_total_assets`.  `cash` and `evltSum` are the
market-dependent inputs (orderable cash, holdings evaluation sum). -/
def units_held_run (cached : ℚ) (forceRefresh : Bool) (cash evltSum : ℚ)
    (purAmt lotsCost posCost : Option ℚ) : ℚ :=
  get_current_units_held (get_total_assets cached forceRefresh cash evltSum)
    purAmt lotsCost posCost

/-! ## Monitor service: close-of-day logic -/

/-- The position fields `execute_close_logic` reads. -/
structure OpenPos where
  symbol : String
  entry_price : ℚ
  quantity : ℤ
  status : String
  deriving DecidableEq, Repr

/-- Action recorded by the close-of-day logic for one symbol. -/
inductive CloseAction where
  | pyramid
  | sell (quantity : ℤ)
  deriving DecidableEq, Repr

/-- Price lookup in the cycle's price map. -/
def lookupPrice : List (String × ℚ) → String → Option ℚ
  | [], _ => none
  | (k, v) :: rest, s => if k = s then some v else lookupPrice rest s

/-- `MonitorService.execute_close_logic`: for every open position whose symbol
was bought today, compare the close price with the entry price; pyramid
(additional half-unit buy) when strictly above, sell the whole position
otherwise.  Positions not bought today, and symbols without a price, are
skipped. -/
def execute_close_logic (positions : List OpenPos) (todayBought : List String)
    (prices : List (String × ℚ)) : List (String × CloseAction) :=
  positions.filterMap (fun pos =>
    if pos.status ≠ "open" then none
    else if pos.symbol ∈ todayBought then
      match lookupPrice prices pos.symbol with
      | none => none
      | some last =>
        if pos.entry_price < last then some (pos.symbol, CloseAction.pyramid)
        else some (pos.symbol, CloseAction.sell pos.quantity)
    else none)

/-! ## Lot service (`services/lot_service.py`) -/

/-- A row of `account_trade_history` as read by `construct_daily_lots`.
`crd_class = ""` models a NULL lending class, `loan_dt = ""` a NULL loan
reference; `trade_date` is a day number. -/
structure Trade where
  stk_cd : String
  stk_nm : String
  io_tp_nm : String
  crd_class : String
  loan_dt : String
  trade_date : ℤ
  cntr_qty : ℤ
  cntr_uv : ℚ
  currency : String
  exchange_code : String
  deriving DecidableEq, Repr

/-- `_is_buy`: the trade-type name contains "매수". -/
def _is_buy (io_tp_nm : String) : Bool :=
  decide ("매수".toList <:+: io_tp_nm.toList)

/-- `_is_sell`: the trade-type name contains "매도" and not "매수". -/
def _is_sell (io_tp_nm : String) : Bool :=
  decide ("매도".toList <:+: io_tp_nm.toList) && !(decide ("매수".toList <:+: io_tp_nm.toList))

/-- Grouping key `(stock_code, crd_class or "CASH", loan_dt or "", trade_date)`. -/
structure GKey where
  stock_code : String
  crd_class : String
  loan_dt : String
  trade_date : ℤ
  deriving DecidableEq, Repr

/-- The grouping key of a trade row. -/
def tradeKey (t : Trade) : GKey :=
  ⟨t.stk_cd, if t.crd_class = "" then "CASH" else t.crd_class, t.loan_dt, t.trade_date⟩

/-- A row of `daily_lots`.  `lot_id` models the auto-increment primary key;
`(stock_code, crd_class, loan_dt, trade_date)` is the upsert key. -/
structure Lot where
  lot_id : ℕ
  stock_code : String
  stock_name : String
  crd_class : String
  loan_dt : String
  trade_date : ℤ
  net_quantity : ℤ
  avg_purchase_price : ℚ
  total_cost : ℚ
  is_closed : Bool
  closed_date : Option ℤ
  holding_days : Option ℤ
  realized_pnl : Option ℚ
  current_price : Option ℚ
  currency : String
  exchange_code : String
  deriving DecidableEq, Repr

/-- A default lot row, used only as the fallback of `List.getD`. -/
def dfltLot : Lot :=
  ⟨0, "", "", "", "", 0, 0, 0, 0, false, none, none, none, none, "", ""⟩

/-- One `UPDATE` performed by `_reduce_lots_lifo`, recorded for analysis:
which lot (id and open date) was reduced by a sell dated `sell_date`, and
whether it was fully closed. -/
structure ReduceEvent where
  lot_id : ℕ
  lot_date : ℤ
  sell_date : ℤ
  fullClose : Bool
  deriving DecidableEq, Repr

/-- The "Sold N of X without matching lots" warning. -/
structure OversellWarning where
  qty : ℤ
  stock_code : String
  deriving DecidableEq, Repr

/-- The ledger state threaded through `construct_daily_lots`: the `daily_lots`
table plus the reduce events and warnings emitted so far. -/
structure LedgerState where
  lots : List Lot
  events : List ReduceEvent
  warnings : List OversellWarning
  deriving DecidableEq, Repr

/-- `_get_existing_lot_quantity`: summed `net_quantity` of open lots of the
group opened strictly before `beforeDate`. -/
def _get_existing_lot_quantity (lots : List Lot) (sc cc ld : String)
    (beforeDate : ℤ) : ℤ :=
  ((lots.filter (fun l => decide (l.stock_code = sc ∧ l.crd_class = cc ∧
      l.loan_dt = ld ∧ l.is_closed = false ∧ l.trade_date < beforeDate))).map
    (·.net_quantity)).sum

/-- The fully-closing `UPDATE` of `_reduce_lots_lifo`: close the lot at the
sell date, recording realized PnL `(sell_price − avg_cost) * qty` and holding
days `sell_date − open_date`. -/
def closeLot (sellDate : ℤ) (sellPrice : ℚ) (l : Lot) : Lot :=
  { l with is_closed := true
           closed_date := some sellDate
           net_quantity := 0
           current_price := some sellPrice
           holding_days := some (sellDate - l.trade_date)
           realized_pnl := some ((sellPrice - l.avg_purchase_price) * (l.net_quantity : ℚ)) }

/-- The partially-reducing `UPDATE` of `_reduce_lots_lifo`: subtract the
remaining close amount and recompute the total cost. -/
def partialLot (remaining : ℤ) (l : Lot) : Lot :=
  { l with net_quantity := l.net_quantity - remaining
           total_cost := l.avg_purchase_price * ((l.net_quantity - remaining : ℤ) : ℚ) }

/-- The loop of `_reduce_lots_lifo` over the selected lots (already sorted
newest-open-date-first): fully close lots while their quantity fits in the
remainder, partially reduce the first lot that does not, leave the rest
untouched.  Returns the updated lots, the reduce events, and the final
unabsorbed remainder. -/
def reduceSorted (sellDate : ℤ) (sellPrice : ℚ) :
    ℤ → List Lot → List Lot × List ReduceEvent × ℤ
  | remaining, [] => ([], [], remaining)
  | remaining, l :: rest =>
    if remaining ≤ 0 then (l :: rest, [], remaining)
    else if l.net_quantity ≤ remaining then
      let r := reduceSorted sellDate sellPrice (remaining - l.net_quantity) rest
      (closeLot sellDate sellPrice l :: r.1,
       ⟨l.lot_id, l.trade_date, sellDate, true⟩ :: r.2.1, r.2.2)
    else
      (partialLot remaining l :: rest, [⟨l.lot_id, l.trade_date, sellDate, false⟩], 0)

/-- `_reduce_lots_lifo`: select the group's open lots with
`trade_date ≤ sell_date`, order them newest-first, run the reduction loop, and
write the updated rows back; warn when quantity remains unabsorbed. -/
def _reduce_lots_lifo (lots : List Lot) (sc cc ld : String)
    (sellQty sellDate : ℤ) (sellPrice : ℚ) :
    List Lot × List ReduceEvent × List OversellWarning :=
  let sel := lots.filter (fun l => decide (l.stock_code = sc ∧ l.crd_class = cc ∧
      l.loan_dt = ld ∧ l.is_closed = false ∧ l.trade_date ≤ sellDate))
  let sorted := sel.insertionSort (fun a b => b.trade_date ≤ a.trade_date)
  let r := reduceSorted sellDate sellPrice sellQty sorted
  let newLots := lots.map (fun l => ((r.1.find? (fun u => u.lot_id == l.lot_id)).getD l))
  let warn : List OversellWarning := if 0 < r.2.2 then [⟨r.2.2, sc⟩] else []
  (newLots, r.2.1, warn)

/-- Whether a lot row matches the upsert key of `daily_lots`. -/
def matchKey (sc cc ld : String) (d : ℤ) (l : Lot) : Bool :=
  decide (l.stock_code = sc ∧ l.crd_class = cc ∧ l.loan_dt = ld ∧ l.trade_date = d)

/-- The `ON DUPLICATE KEY UPDATE` part of `_insert_daily_lot`: overwrite name,
quantity, price, cost, currency and venue; key fields and closure state are
untouched. -/
def setLotValues (nm : String) (q : ℤ) (avg cost : ℚ) (curr exch : String)
    (l : Lot) : Lot :=
  { l with stock_name := nm, net_quantity := q, avg_purchase_price := avg,
           total_cost := cost, currency := curr, exchange_code := exch }

/-- `_insert_daily_lot`: upsert a lot row keyed by
`(stock_code, crd_class, loan_dt, trade_date)`.  A fresh row gets the next
`lot_id` and open-state defaults. -/
def _insert_daily_lot (lots : List Lot) (sc nm cc ld : String) (d : ℤ)
    (q : ℤ) (avg cost : ℚ) (curr exch : String) : List Lot :=
  if lots.any (matchKey sc cc ld d) then
    lots.map (fun l => if matchKey sc cc ld d l then
      setLotValues nm q avg cost curr exch l else l)
  else
    lots ++ [⟨lots.length, sc, nm, cc, ld, d, q, avg, cost, false,
              none, none, none, none, curr, exch⟩]

/-- The day's trades of one group. -/
def groupOf (trades : List Trade) (k : GKey) : List Trade :=
  trades.filter (fun t => decide (tradeKey t = k))

/-- The buy legs of a group. -/
def buysOf (trades : List Trade) (k : GKey) : List Trade :=
  (groupOf trades k).filter (fun t => _is_buy t.io_tp_nm)

/-- The sell legs of a group. -/
def sellsOf (trades : List Trade) (k : GKey) : List Trade :=
  (groupOf trades k).filter (fun t => _is_sell t.io_tp_nm)

/-- Total bought quantity of a group. -/
def buyQtyOf (trades : List Trade) (k : GKey) : ℤ :=
  ((buysOf trades k).map (·.cntr_qty)).sum

/-- Total sold quantity of a group. -/
def sellQtyOf (trades : List Trade) (k : GKey) : ℤ :=
  ((sellsOf trades k).map (·.cntr_qty)).sum

/-- Volume-weighted average buy price of a group (0 when no buys). -/
def avgBuyPriceOf (trades : List Trade) (k : GKey) : ℚ :=
  let totalBuyValue := ((buysOf trades k).map (fun t => (t.cntr_qty : ℚ) * t.cntr_uv)).sum
  if 0 < buyQtyOf trades k then totalBuyValue / ((buyQtyOf trades k : ℤ) : ℚ) else 0

/-- Volume-weighted average sell price of a group (0 when no sells). -/
def avgSellPriceOf (trades : List Trade) (k : GKey) : ℚ :=
  let totalSellValue := ((sellsOf trades k).map (fun t => (t.cntr_qty : ℚ) * t.cntr_uv)).sum
  if 0 < sellQtyOf trades k then totalSellValue / ((sellQtyOf trades k : ℤ) : ℚ) else 0

/-- `group[0]["stk_nm"]` — the first row's stock name. -/
def stockNameOf (trades : List Trade) (k : GKey) : String :=
  (((groupOf trades k).head?).map (·.stk_nm)).getD ""

/-- `group[0].get("currency", "USD")`. -/
def currencyOf (trades : List Trade) (k : GKey) : String :=
  (((groupOf trades k).head?).map (·.currency)).getD "USD"

/-- `group[0].get("exchange_code", "NASD")`. -/
def exchangeOf (trades : List Trade) (k : GKey) : String :=
  (((groupOf trades k).head?).map (·.exchange_code)).getD "NASD"

/-- Tail of each group iteration in `construct_daily_lots`: create a lot when
the day nets to a buy; warn on an unmatched net sell. -/
def finishGroup (st : LedgerState) (trades : List Trade) (k : GKey)
    (netBuy existingQty : ℤ) : LedgerState :=
  if 0 < netBuy then
    let avgPrice := avgBuyPriceOf trades k
    let totalCost := avgPrice * (netBuy : ℚ)
    let newLots := _insert_daily_lot st.lots k.stock_code (stockNameOf trades k)
        k.crd_class k.loan_dt k.trade_date netBuy avgPrice totalCost
        (currencyOf trades k) (exchangeOf trades k)
    { st with lots := newLots }
  else if netBuy < 0 ∧ existingQty = 0 then
    { st with warnings := st.warnings ++ [⟨-netBuy, k.stock_code⟩] }
  else st

/-- One group iteration of `construct_daily_lots`: match the day's sells
against prior open lots (when both exist), then net out the day. -/
def processGroup (st : LedgerState) (trades : List Trade) (k : GKey) : LedgerState :=
  let buyQty := buyQtyOf trades k
  let sellQty := sellQtyOf trades k
  let existingQty := _get_existing_lot_quantity st.lots k.stock_code k.crd_class
      k.loan_dt k.trade_date
  if 0 < existingQty ∧ 0 < sellQty then
    let closeQty := min sellQty existingQty
    let r := _reduce_lots_lifo st.lots k.stock_code k.crd_class k.loan_dt
        closeQty k.trade_date (avgSellPriceOf trades k)
    let st1 : LedgerState := ⟨r.1, st.events ++ r.2.1, st.warnings ++ r.2.2⟩
    let remainingSell := sellQty - closeQty
    finishGroup st1 trades k (buyQty - remainingSell) existingQty
  else
    finishGroup st trades k (buyQty - sellQty) existingQty

/-- Group keys in first-occurrence order (the iteration order of the Python
grouping dict over the date-ordered query result). -/
def firstKeys : List Trade → List GKey
  | [] => []
  | t :: ts => tradeKey t :: (firstKeys ts).filter (fun k => decide (k ≠ tradeKey t))

/-- `construct_daily_lots`: process every `(symbol, lending class, loan
reference, trade date)` group of the delivered trade rows in order. -/
def construct_daily_lots (st : LedgerState) (trades : List Trade) : LedgerState :=
  (firstKeys trades).foldl (fun s k => processGroup s trades k) st

/-! ## Claims about the order service -/

/-- C8: for every open position with entry price `e > 0` and stop-loss percent
`p`, the stop-loss check triggers exactly when the current price is at most
`e * (1 - p/100)`; in particular it triggers at exactly that threshold and not
strictly above it. -/
theorem stop_loss_triggers_iff_at_threshold (e pct c : ℚ) (he : 0 < e) :
    check_stop_loss (some ⟨"open", e, pct⟩) c = true ↔ c ≤ e * (1 - pct / 100) := by
  simp only [check_stop_loss]
  rw [if_neg (by simp), if_neg (not_le.mpr he), decide_eq_true_eq]
  constructor
  · intro h
    have h2 : c / e ≤ 1 - pct / 100 := by linarith
    calc c = c / e * e := by field_simp
    _ ≤ (1 - pct / 100) * e := mul_le_mul_of_nonneg_right h2 he.le
    _ = e * (1 - pct / 100) := mul_comm _ _
  · intro h
    have h2 : c / e ≤ 1 - pct / 100 := by
      rw [div_le_iff₀ he]
      calc c ≤ e * (1 - pct / 100) := h
      _ = (1 - pct / 100) * e := mul_comm _ _
    linarith

/-- Witness for C8: entry 100, stop-loss 7% — price exactly 93 triggers. -/
theorem stop_loss_triggers_iff_at_threshold_witness :
    (0:ℚ) < 100 ∧ check_stop_loss (some ⟨"open", 100, 7⟩) 93 = true :=
  ⟨by norm_num,
   (stop_loss_triggers_iff_at_threshold 100 7 93 (by norm_num)).mpr (by norm_num)⟩

/-- C9: a sell submits at most the sellable quantity reported by the external
holdings feed, and a reported sellable quantity of zero or less submits no
order at all. -/
theorem sell_never_exceeds_sellable (p : SellPos) (s : ℤ) (rt : Option ℚ) (pp : ℚ) :
    (∀ o : SellOrder, execute_sell (some p) (some s) rt pp = some o →
       o.quantity ≤ s) ∧
    (s ≤ 0 → execute_sell (some p) (some s) rt pp = none) := by
  constructor
  · intro o ho
    simp only [execute_sell] at ho
    by_cases hq : p.quantity ≤ 0
    · rw [if_pos hq] at ho; exact absurd ho (by simp)
    · rw [if_neg hq] at ho
      by_cases hs : s ≤ 0
      · rw [if_pos hs] at ho; exact absurd ho (by simp)
      · rw [if_neg hs] at ho
        injection ho with h
        rw [← h]
        by_cases hlt : s < p.quantity
        · simp [hlt]
        · simp [hlt]; omega
  · intro hs
    simp only [execute_sell]
    by_cases hq : p.quantity ≤ 0
    · rw [if_pos hq]
    · rw [if_neg hq, if_pos hs]

/-- Witness for C9: position of 5 shares, feed reports 0 sellable — no order. -/
theorem sell_never_exceeds_sellable_witness :
    execute_sell (some ⟨"AAPL", 5, 100⟩) (some 0) none 10 = none :=
  (sell_never_exceeds_sellable ⟨"AAPL", 5, 100⟩ 0 none 10).2 (by norm_num)

/-- C10: for every positive price, `calculate_shares` returns at least one
share (even for zero capital), so the `shares ≤ 0` "insufficient capital"
branch of `execute_buy` is unreachable: `execute_buy` always submits an order
of at least one share. -/
theorem buy_always_at_least_one_share (symbol : String)
    (halfUnitAmount currentPrice : ℚ) (_hp : 0 < currentPrice) :
    1 ≤ calculate_shares halfUnitAmount (add_price_buffer currentPrice (1/2)) ∧
    (execute_buy symbol halfUnitAmount currentPrice).isSome = true ∧
    ∀ o : BuyOrder, execute_buy symbol halfUnitAmount currentPrice = some o →
      1 ≤ o.shares := by
  have h1 : (1:ℤ) ≤ calculate_shares halfUnitAmount (add_price_buffer currentPrice (1/2)) :=
    le_max_right _ _
  have h2 : execute_buy symbol halfUnitAmount currentPrice =
      some ⟨symbol, calculate_shares halfUnitAmount (add_price_buffer currentPrice (1/2)),
            add_price_buffer currentPrice (1/2)⟩ := by
    simp only [execute_buy]
    rw [if_neg (by omega)]
  refine ⟨h1, by rw [h2]; rfl, fun o ho => ?_⟩
  rw [h2] at ho
  injection ho with h3
  rw [← h3]
  exact h1

/-- Witness for C10: zero capital, price 10 — an order for one share. -/
theorem buy_always_at_least_one_share_witness :
    (execute_buy "AAPL" 0 10).isSome = true :=
  (buy_always_at_least_one_share "AAPL" 0 10 (by norm_num)).2.1

/-! ## Claims about the monitor service -/

/-- C2: a breakout or gap-up entry fires only when all three duplicate-buy
guards pass (zero in-memory trigger count, no broker-API buy in the last two
days, no durable-store buy today), and any failing guard makes the check
return `false` for the cycle. -/
theorem entry_requires_all_three_guards (cu mu : ℚ) (tc : ℕ) (ab db : Bool)
    (pl : Option ℚ) (tp : ℚ) :
    (check_breakout_entry cu mu tc ab db pl tp = true →
       tc = 0 ∧ ab = false ∧ db = false) ∧
    ((1 ≤ tc ∨ ab = true ∨ db = true) →
       check_breakout_entry cu mu tc ab db pl tp = false) ∧
    (check_gap_up_entry cu mu tc ab db pl tp = true →
       tc = 0 ∧ ab = false ∧ db = false) ∧
    ((1 ≤ tc ∨ ab = true ∨ db = true) →
       check_gap_up_entry cu mu tc ab db pl tp = false) := by
  unfold check_breakout_entry check_gap_up_entry
  split_ifs with h1 h2 h3 h4 <;> simp_all

/-- Witness for C2: a nonzero trigger count alone forces the breakout check
to return `false`. -/
theorem entry_requires_all_three_guards_witness :
    check_breakout_entry 0 1 1 false false (some 10) 5 = false :=
  (entry_requires_all_three_guards 0 1 1 false false (some 10) 5).2.1
    (Or.inl (by norm_num))

/-- Counterexample to C3 as stated: two evaluations differing only in the
holdings' market evaluation (`evltSum` 100000 vs 200000, same purchase cost
4500, no new trade) return different `units_held` whenever the total-assets
cache is cold, because the unit value is derived from the market-dependent
account value. -/
theorem units_held_market_dependent_cex :
    units_held_run 0 false 0 100000 (some 4500) none none ≠
    units_held_run 0 false 0 200000 (some 4500) none none := by
  unfold units_held_run get_total_assets get_current_units_held
  norm_num

/-- C3 (amended): `units_held` is computed from purchase cost against the
latest known account value; as long as that cached account value is positive
and not force-refreshed, evaluations differing only in market-dependent
inputs (cash, holdings evaluation) return identical `units_held`. -/
theorem units_held_fixed_assets_noninterference (cached cash1 evlt1 cash2 evlt2 : ℚ)
    (purAmt lotsCost posCost : Option ℚ) (hc : 0 < cached) :
    units_held_run cached false cash1 evlt1 purAmt lotsCost posCost =
    units_held_run cached false cash2 evlt2 purAmt lotsCost posCost := by
  unfold units_held_run get_total_assets
  rw [if_pos ⟨hc, rfl⟩, if_pos ⟨hc, rfl⟩]

/-- Witness for amended C3: the spec's example — account value 100000 cached,
4500 of cost basis stays 0.9 units after the market value doubles. -/
theorem units_held_fixed_assets_noninterference_witness :
    (0:ℚ) < 100000 ∧
    units_held_run 100000 false 0 100000 (some 4500) none none =
      units_held_run 100000 false 0 200000 (some 4500) none none :=
  ⟨by norm_num,
   units_held_fixed_assets_noninterference 100000 0 100000 0 200000
     (some 4500) none none (by norm_num)⟩

/-- C4: in the close-of-day window, every open position bought today is
pyramided when the close is strictly above entry and sold in full otherwise;
symbols not bought today receive no close action. -/
theorem close_logic_acts_on_today_only (positions : List OpenPos)
    (todayBought : List String) (prices : List (String × ℚ)) :
    (∀ pos ∈ positions, pos.status = "open" → pos.symbol ∈ todayBought →
      ∀ last, lookupPrice prices pos.symbol = some last →
        (pos.entry_price < last →
          (pos.symbol, CloseAction.pyramid) ∈
            execute_close_logic positions todayBought prices) ∧
        (last ≤ pos.entry_price →
          (pos.symbol, CloseAction.sell pos.quantity) ∈
            execute_close_logic positions todayBought prices)) ∧
    (∀ sym act, (sym, act) ∈ execute_close_logic positions todayBought prices →
      sym ∈ todayBought) := by
  constructor
  · intro pos hmem hst htd last hlook
    constructor
    · intro hlt
      apply List.mem_filterMap.mpr
      refine ⟨pos, hmem, ?_⟩
      rw [if_neg (by simp [hst]), if_pos htd, hlook]
      simp [hlt]
    · intro hle
      apply List.mem_filterMap.mpr
      refine ⟨pos, hmem, ?_⟩
      rw [if_neg (by simp [hst]), if_pos htd, hlook]
      simp [not_lt.mpr hle]
  · intro sym act hmem
    obtain ⟨pos, hp, hf⟩ := List.mem_filterMap.mp hmem
    by_cases hst : pos.status ≠ "open"
    · rw [if_pos hst] at hf; exact absurd hf (by simp)
    · rw [if_neg hst] at hf
      by_cases htd : pos.symbol ∈ todayBought
      · rw [if_pos htd] at hf
        cases hlook : lookupPrice prices pos.symbol with
        | none => rw [hlook] at hf; exact absurd hf (by simp)
        | some last =>
          rw [hlook] at hf
          by_cases hlt : pos.entry_price < last
          · simp [hlt] at hf
            exact hf.1 ▸ htd
          · simp [hlt] at hf
            exact hf.1 ▸ htd
      · rw [if_neg htd] at hf; exact absurd hf (by simp)

/-- Witness for C4: the spec's scenario — bought today at 100. Close 105
records a pyramid; close 99 records a full sell; a position from before today
is untouched. -/
theorem close_logic_acts_on_today_only_witness :
    ((("AAA" : String), CloseAction.pyramid) ∈
       execute_close_logic [⟨"AAA", 100, 10, "open"⟩] ["AAA"] [("AAA", 105)]) ∧
    ((("AAA" : String), CloseAction.sell 10) ∈
       execute_close_logic [⟨"AAA", 100, 10, "open"⟩] ["AAA"] [("AAA", 99)]) ∧
    ∀ act, (("OLD" : String), act) ∉
       execute_close_logic [⟨"OLD", 50, 3, "open"⟩] ["AAA"] [("OLD", 60)] := by
  refine ⟨?_, ?_, ?_⟩
  · exact ((close_logic_acts_on_today_only [⟨"AAA", 100, 10, "open"⟩] ["AAA"]
      [("AAA", 105)]).1 ⟨"AAA", 100, 10, "open"⟩ (by simp) rfl (by simp) 105
        (by simp [lookupPrice])).1 (by norm_num)
  · exact ((close_logic_acts_on_today_only [⟨"AAA", 100, 10, "open"⟩] ["AAA"]
      [("AAA", 99)]).1 ⟨"AAA", 100, 10, "open"⟩ (by simp) rfl (by simp) 99
        (by simp [lookupPrice])).2 (by norm_num)
  · intro act hmem
    have := (close_logic_acts_on_today_only [⟨"OLD", 50, 3, "open"⟩] ["AAA"]
      [("OLD", 60)]).2 "OLD" act hmem
    simp at this

/-! ## Claims about the lot service: LIFO reduction -/

/-- Quantity absorbed by the first `i` lots of a reduction walk. -/
def prefixQty (lots : List Lot) (i : ℕ) : ℤ :=
  ((lots.take i).map (·.net_quantity)).sum

lemma prefixQty_zero (lots : List Lot) : prefixQty lots 0 = 0 := rfl

lemma prefixQty_cons_succ (l : Lot) (rest : List Lot) (i : ℕ) :
    prefixQty (l :: rest) (i + 1) = l.net_quantity + prefixQty rest i := by
  simp [prefixQty, List.take_succ_cons]

lemma prefixQty_nonneg (lots : List Lot) (h : ∀ l ∈ lots, 0 ≤ l.net_quantity)
    (i : ℕ) : 0 ≤ prefixQty lots i := by
  apply List.sum_nonneg
  intro x hx
  obtain ⟨a, ha, rfl⟩ := List.mem_map.mp hx
  exact h a (List.take_subset i lots ha)

/-- C1: the LIFO reduction walk over the newest-first open lots.  With `r` the
close amount and `P i` the quantity of the `i` newest lots: every lot entirely
absorbed (`P (i+1) ≤ r`) is fully closed via `closeLot` (realized PnL
`(sell_price − avg_cost) * qty`, holding days `sell_date − open_date`); the
first lot only partially absorbed (`P i < r < P (i+1)`) is reduced by exactly
the remainder `r − P i`; every older lot (`r ≤ P i`) is untouched. -/
theorem reduce_lifo_newest_first (sd : ℤ) (sp : ℚ) (r : ℤ) (lots : List Lot)
    (hpos : ∀ l ∈ lots, 0 < l.net_quantity)
    (hsorted : lots.Pairwise (fun a b => b.trade_date ≤ a.trade_date)) :
    (reduceSorted sd sp r lots).1.length = lots.length ∧
    ∀ i, i < lots.length →
      (prefixQty lots (i + 1) ≤ r →
        (reduceSorted sd sp r lots).1.getD i dfltLot =
          closeLot sd sp (lots.getD i dfltLot)) ∧
      (prefixQty lots i < r → r < prefixQty lots (i + 1) →
        (reduceSorted sd sp r lots).1.getD i dfltLot =
          partialLot (r - prefixQty lots i) (lots.getD i dfltLot)) ∧
      (r ≤ prefixQty lots i →
        (reduceSorted sd sp r lots).1.getD i dfltLot = lots.getD i dfltLot) := by
  induction lots generalizing r with
  | nil => exact ⟨rfl, fun i hi => absurd hi (by simp)⟩
  | cons l rest ih =>
    have hposl : 0 < l.net_quantity := hpos l (by simp)
    have hnonneg : ∀ x ∈ rest, 0 ≤ x.net_quantity :=
      fun x hx => (hpos x (by simp [hx])).le
    have hposr : ∀ x ∈ rest, 0 < x.net_quantity := fun x hx => hpos x (by simp [hx])
    have hsortr : rest.Pairwise (fun a b => b.trade_date ≤ a.trade_date) :=
      hsorted.of_cons
    by_cases hr : r ≤ 0
    · have hred : (reduceSorted sd sp r (l :: rest)).1 = l :: rest := by
        simp only [reduceSorted, if_pos hr]
      refine ⟨by rw [hred], fun i hi => ⟨fun hle => ?_, fun h1 h2 => ?_, fun _ => by rw [hred]⟩⟩
      · exfalso
        have h0 : 0 ≤ prefixQty rest i := prefixQty_nonneg rest hnonneg i
        rw [prefixQty_cons_succ] at hle
        omega
      · exfalso
        have h0 : 0 ≤ prefixQty (l :: rest) i :=
          prefixQty_nonneg (l :: rest) (fun x hx => (hpos x hx).le) i
        omega
    · by_cases hq : l.net_quantity ≤ r
      · have hred : (reduceSorted sd sp r (l :: rest)).1 =
            closeLot sd sp l :: (reduceSorted sd sp (r - l.net_quantity) rest).1 := by
          simp only [reduceSorted, if_neg hr, if_pos hq]
        obtain ⟨ihlen, ihspec⟩ := ih (r - l.net_quantity) hposr hsortr
        refine ⟨by rw [hred]; simpa using ihlen, fun i hi => ?_⟩
        cases i with
        | zero =>
          refine ⟨fun _ => by rw [hred]; rfl, fun h1 h2 => ?_, fun h3 => ?_⟩
          · exfalso
            rw [prefixQty_cons_succ, prefixQty_zero] at h2
            omega
          · exfalso
            rw [prefixQty_zero] at h3
            omega
        | succ i' =>
          have hi' : i' < rest.length := by simpa using hi
          have spec := ihspec i' hi'
          rw [prefixQty_cons_succ, prefixQty_cons_succ]
          refine ⟨fun h => ?_, fun h1 h2 => ?_, fun h3 => ?_⟩
          · rw [hred]
            simp only [List.getD_cons_succ]
            exact spec.1 (by omega)
          · rw [hred]
            simp only [List.getD_cons_succ]
            have harg : r - (l.net_quantity + prefixQty rest i') =
                r - l.net_quantity - prefixQty rest i' := by ring
            rw [harg]
            exact spec.2.1 (by omega) (by omega)
          · rw [hred]
            simp only [List.getD_cons_succ]
            exact spec.2.2 (by omega)
      · have hred : (reduceSorted sd sp r (l :: rest)).1 = partialLot r l :: rest := by
          simp only [reduceSorted, if_neg hr, if_neg hq]
        refine ⟨by rw [hred]; rfl, fun i hi => ?_⟩
        cases i with
        | zero =>
          refine ⟨fun h => ?_, fun h1 h2 => ?_, fun h3 => ?_⟩
          · exfalso
            have h0 : 0 ≤ prefixQty rest 0 := prefixQty_nonneg rest hnonneg 0
            rw [prefixQty_cons_succ] at h
            omega
          · rw [hred, prefixQty_zero]
            simp
          · exfalso
            rw [prefixQty_zero] at h3
            omega
        | succ i' =>
          have h0 : 0 ≤ prefixQty rest i' := prefixQty_nonneg rest hnonneg i'
          have h1 : 0 ≤ prefixQty rest (i' + 1) := prefixQty_nonneg rest hnonneg (i' + 1)
          rw [prefixQty_cons_succ, prefixQty_cons_succ]
          refine ⟨fun h => by omega, fun ha hb => by omega, fun h3 => ?_⟩
          rw [hred]
          simp only [List.getD_cons_succ]

/-- Witness for C1: lots opened on days 3, 2, 1 (newest first, quantities
5, 4, 3) and a close amount of exactly the newest lot's quantity — the newest
lot is closed, the two older lots are untouched. -/
theorem reduce_lifo_newest_first_witness :
    ((reduceSorted 10 8 5 [⟨2, "S", "N", "CASH", "", 3, 5, 10, 50, false, none, none, none, none, "USD", "NASD"⟩,
        ⟨1, "S", "N", "CASH", "", 2, 4, 11, 44, false, none, none, none, none, "USD", "NASD"⟩,
        ⟨0, "S", "N", "CASH", "", 1, 3, 12, 36, false, none, none, none, none, "USD", "NASD"⟩]).1.getD 0 dfltLot =
      closeLot 10 8 ⟨2, "S", "N", "CASH", "", 3, 5, 10, 50, false, none, none, none, none, "USD", "NASD"⟩) ∧
    ((reduceSorted 10 8 5 [⟨2, "S", "N", "CASH", "", 3, 5, 10, 50, false, none, none, none, none, "USD", "NASD"⟩,
        ⟨1, "S", "N", "CASH", "", 2, 4, 11, 44, false, none, none, none, none, "USD", "NASD"⟩,
        ⟨0, "S", "N", "CASH", "", 1, 3, 12, 36, false, none, none, none, none, "USD", "NASD"⟩]).1.getD 1 dfltLot =
      ⟨1, "S", "N", "CASH", "", 2, 4, 11, 44, false, none, none, none, none, "USD", "NASD"⟩) ∧
    ((reduceSorted 10 8 5 [⟨2, "S", "N", "CASH", "", 3, 5, 10, 50, false, none, none, none, none, "USD", "NASD"⟩,
        ⟨1, "S", "N", "CASH", "", 2, 4, 11, 44, false, none, none, none, none, "USD", "NASD"⟩,
        ⟨0, "S", "N", "CASH", "", 1, 3, 12, 36, false, none, none, none, none, "USD", "NASD"⟩]).1.getD 2 dfltLot =
      ⟨0, "S", "N", "CASH", "", 1, 3, 12, 36, false, none, none, none, none, "USD", "NASD"⟩) := by
  have h := reduce_lifo_newest_first 10 8 5
    [⟨2, "S", "N", "CASH", "", 3, 5, 10, 50, false, none, none, none, none, "USD", "NASD"⟩,
     ⟨1, "S", "N", "CASH", "", 2, 4, 11, 44, false, none, none, none, none, "USD", "NASD"⟩,
     ⟨0, "S", "N", "CASH", "", 1, 3, 12, 36, false, none, none, none, none, "USD", "NASD"⟩]
    (by decide) (by decide)
  exact ⟨(h.2 0 (by decide)).1 (by decide),
         (h.2 1 (by decide)).2.2 (by decide),
         (h.2 2 (by decide)).2.2 (by decide)⟩

/-! ## Claims about the lot service: daily construction -/

lemma firstKeys_const (T : List Trade) (k : GKey) (hne : T ≠ [])
    (hkey : ∀ t ∈ T, tradeKey t = k) : firstKeys T = [k] := by
  induction T with
  | nil => exact absurd rfl hne
  | cons t ts ih =>
    have hk : tradeKey t = k := hkey t (by simp)
    cases ts with
    | nil => simp [firstKeys, hk]
    | cons u us =>
      have hts : firstKeys (u :: us) = [k] :=
        ih (by simp) (fun x hx => hkey x (by simp [hx]))
      simp [firstKeys] at hts ⊢
      exact ⟨hk, by rw [hts.1, hk], fun a ha hne2 => absurd (hts.2 a ha) hne2⟩

/-- C7: a day's group whose sells exceed its buys, with no prior open lots for
the group, leaves the lot table untouched, reduces nothing, and only appends
the "sold without matching lots" warning for the excess. -/
theorem oversell_without_lots_warns (st : LedgerState) (T : List Trade) (k : GKey)
    (hne : T ≠ []) (hkey : ∀ t ∈ T, tradeKey t = k)
    (hsell : buyQtyOf T k < sellQtyOf T k)
    (hex : _get_existing_lot_quantity st.lots k.stock_code k.crd_class k.loan_dt
      k.trade_date = 0) :
    (construct_daily_lots st T).lots = st.lots ∧
    (construct_daily_lots st T).events = st.events ∧
    (construct_daily_lots st T).warnings =
      st.warnings ++ [⟨sellQtyOf T k - buyQtyOf T k, k.stock_code⟩] := by
  have hk : firstKeys T = [k] := firstKeys_const T k hne hkey
  unfold construct_daily_lots
  rw [hk]
  simp only [List.foldl_cons, List.foldl_nil]
  unfold processGroup
  rw [hex]
  rw [if_neg (by simp)]
  unfold finishGroup
  rw [if_neg (by omega), if_pos ⟨by omega, rfl⟩]
  refine ⟨rfl, rfl, ?_⟩
  have : -(buyQtyOf T k - sellQtyOf T k) = sellQtyOf T k - buyQtyOf T k := by ring
  rw [this]

/-- Witness for C7: a single sell of 50 shares with an empty lot table —
no lots created, no reduction, one warning. -/
theorem oversell_without_lots_warns_witness :
    (construct_daily_lots ⟨[], [], []⟩
      [⟨"TST", "Test", "해외주식매도", "CASH", "", 1, 50, 10, "USD", "NASD"⟩]).lots =
      ([] : List Lot) ∧
    (construct_daily_lots ⟨[], [], []⟩
      [⟨"TST", "Test", "해외주식매도", "CASH", "", 1, 50, 10, "USD", "NASD"⟩]).warnings =
      [⟨50, "TST"⟩] := by
  have h := oversell_without_lots_warns ⟨[], [], []⟩
    [⟨"TST", "Test", "해외주식매도", "CASH", "", 1, 50, 10, "USD", "NASD"⟩]
    ⟨"TST", "CASH", "", 1⟩ (by decide) (by decide) (by decide) (by decide)
  refine ⟨h.1, ?_⟩
  rw [h.2.2]
  decide

/-- Trade set for the C6 counterexample: day 1 buys 10 at 100; day 2 buys 5 at
110 and sells 3 at 120. -/
def tradesRerunDiffers : List Trade :=
  [⟨"TST", "Test", "해외주식매수", "CASH", "", 1, 10, 100, "USD", "NASD"⟩,
   ⟨"TST", "Test", "해외주식매수", "CASH", "", 2, 5, 110, "USD", "NASD"⟩,
   ⟨"TST", "Test", "해외주식매도", "CASH", "", 2, 3, 120, "USD", "NASD"⟩]

/-- Counterexample to C6 as stated: rebuilding the same trade set a second
time, starting from the lot state the first (empty-state) run produced, does
not yield the same lots — the second run's upsert resets the day-1 lot to its
full quantity (10 instead of the reduced 7) and the day-2 sell is absorbed by
the same-date day-2 lot instead. -/
theorem rebuild_not_idempotent_cex :
    (construct_daily_lots
        ⟨(construct_daily_lots ⟨[], [], []⟩ tradesRerunDiffers).lots, [], []⟩
        tradesRerunDiffers).lots ≠
      (construct_daily_lots ⟨[], [], []⟩ tradesRerunDiffers).lots := by decide

/-- Trade set for the C5 counterexample: day 1 buys 10 at 100; day 2 buys 2 at
110 and sells 9 at 105. -/
def tradesSameDateClose : List Trade :=
  [⟨"TST", "Test", "해외주식매수", "CASH", "", 1, 10, 100, "USD", "NASD"⟩,
   ⟨"TST", "Test", "해외주식매수", "CASH", "", 2, 2, 110, "USD", "NASD"⟩,
   ⟨"TST", "Test", "해외주식매도", "CASH", "", 2, 9, 105, "USD", "NASD"⟩]

/-- Counterexample to C5 as stated: starting from the lot state a first
(empty-state) run produced, reprocessing the same trades makes day 2's sells
fully close the lot opened on day 2 itself (reduce event with
`lot_date = sell_date = 2`), because `_reduce_lots_lifo` selects open lots
with `trade_date ≤ sell_date` and visits the newest — the same-date lot —
first. -/
theorem same_date_lot_reduced_cex :
    ((construct_daily_lots
        ⟨(construct_daily_lots ⟨[], [], []⟩ tradesSameDateClose).lots, [], []⟩
        tradesSameDateClose).events.filter
      (fun e => e.lot_date == e.sell_date)) = [⟨1, 2, 2, true⟩] := by decide

/-! ### Sell-free idempotency of the rebuild (amended C6)

Proof infrastructure: on a sell-free trade set every group nets to its buy
quantity, so each group iteration is a pure upsert whose values depend only on
the trades; a second run then rewrites every lot with the values it already
has. -/

/-- The upsert-key test of a lot against a group key. -/
def matchGK (k : GKey) : Lot → Bool :=
  matchKey k.stock_code k.crd_class k.loan_dt k.trade_date

/-- The lots-level effect of `processGroup` on a sell-free trade set
(proof helper; see `processGroup_no_sell`). -/
def noSellStep (trades : List Trade) (lots : List Lot) (k : GKey) : List Lot :=
  if 0 < buyQtyOf trades k then
    _insert_daily_lot lots k.stock_code (stockNameOf trades k) k.crd_class k.loan_dt
      k.trade_date (buyQtyOf trades k) (avgBuyPriceOf trades k)
      (avgBuyPriceOf trades k * ((buyQtyOf trades k : ℤ) : ℚ))
      (currencyOf trades k) (exchangeOf trades k)
  else lots

/-- A lot already carries the values the group `k` of `trades` would upsert. -/
def goodLot (trades : List Trade) (k : GKey) (l : Lot) : Prop :=
  setLotValues (stockNameOf trades k) (buyQtyOf trades k) (avgBuyPriceOf trades k)
    (avgBuyPriceOf trades k * ((buyQtyOf trades k : ℤ) : ℚ))
    (currencyOf trades k) (exchangeOf trades k) l = l

lemma matchKey_setLotValues (sc cc ld : String) (d : ℤ) (nm : String) (q : ℤ)
    (avg cost : ℚ) (curr exch : String) (l : Lot) :
    matchKey sc cc ld d (setLotValues nm q avg cost curr exch l) =
      matchKey sc cc ld d l := rfl

lemma setLotValues_idem (nm : String) (q : ℤ) (avg cost : ℚ) (curr exch : String)
    (l : Lot) :
    setLotValues nm q avg cost curr exch (setLotValues nm q avg cost curr exch l) =
      setLotValues nm q avg cost curr exch l := rfl

lemma matchGK_inj {k k' : GKey} {l : Lot} (h : matchGK k l = true)
    (h' : matchGK k' l = true) : k = k' := by
  unfold matchGK matchKey at h h'
  simp only [decide_eq_true_eq] at h h'
  cases k
  cases k'
  simp_all

lemma matchGK_newLot {k k' : GKey} {i : ℕ} {nm : String} {q : ℤ} {avg cost : ℚ}
    {curr exch : String}
    (h : matchGK k' ⟨i, k.stock_code, nm, k.crd_class, k.loan_dt, k.trade_date, q,
        avg, cost, false, none, none, none, none, curr, exch⟩ = true) : k' = k := by
  unfold matchGK matchKey at h
  simp only [decide_eq_true_eq] at h
  cases k
  cases k'
  simp_all

lemma insert_any_self (k : GKey) (lots : List Lot) (nm : String) (q : ℤ)
    (avg cost : ℚ) (curr exch : String) :
    (_insert_daily_lot lots k.stock_code nm k.crd_class k.loan_dt k.trade_date q
      avg cost curr exch).any (matchGK k) = true := by
  unfold _insert_daily_lot matchGK
  by_cases h : lots.any (matchKey k.stock_code k.crd_class k.loan_dt k.trade_date) = true
  · rw [if_pos h]
    rw [List.any_eq_true] at h ⊢
    obtain ⟨l, hl, hm⟩ := h
    refine ⟨setLotValues nm q avg cost curr exch l,
      List.mem_map.mpr ⟨l, hl, by rw [if_pos hm]⟩, ?_⟩
    rw [matchKey_setLotValues]
    exact hm
  · rw [if_neg h]
    rw [List.any_eq_true]
    refine ⟨⟨lots.length, k.stock_code, nm, k.crd_class, k.loan_dt, k.trade_date, q,
      avg, cost, false, none, none, none, none, curr, exch⟩,
      List.mem_append_right _ (by simp), ?_⟩
    unfold matchKey
    simp

lemma insert_values_good (k : GKey) (lots : List Lot) (nm : String) (q : ℤ)
    (avg cost : ℚ) (curr exch : String) :
    ∀ l ∈ _insert_daily_lot lots k.stock_code nm k.crd_class k.loan_dt k.trade_date
        q avg cost curr exch,
      matchGK k l = true → setLotValues nm q avg cost curr exch l = l := by
  intro l hl hm
  unfold _insert_daily_lot at hl
  by_cases h : lots.any (matchKey k.stock_code k.crd_class k.loan_dt k.trade_date) = true
  · rw [if_pos h] at hl
    obtain ⟨x, hx, rfl⟩ := List.mem_map.mp hl
    by_cases hmx : matchKey k.stock_code k.crd_class k.loan_dt k.trade_date x = true
    · rw [if_pos hmx]
      exact setLotValues_idem nm q avg cost curr exch x
    · rw [if_neg hmx] at hm ⊢
      exact absurd hm hmx
  · rw [if_neg h] at hl
    rcases List.mem_append.mp hl with hold | hnew
    · exfalso
      apply h
      rw [List.any_eq_true]
      exact ⟨l, hold, hm⟩
    · rw [List.mem_singleton.mp hnew]
      rfl

lemma insert_any_other {k k' : GKey} (_hne : k' ≠ k) (lots : List Lot) (nm : String)
    (q : ℤ) (avg cost : ℚ) (curr exch : String)
    (h : lots.any (matchGK k') = true) :
    (_insert_daily_lot lots k.stock_code nm k.crd_class k.loan_dt k.trade_date q
      avg cost curr exch).any (matchGK k') = true := by
  unfold _insert_daily_lot
  obtain ⟨l, hl, hm⟩ := List.any_eq_true.mp h
  by_cases hany : lots.any (matchKey k.stock_code k.crd_class k.loan_dt k.trade_date) = true
  · rw [if_pos hany]
    rw [List.any_eq_true]
    by_cases hmk : matchKey k.stock_code k.crd_class k.loan_dt k.trade_date l = true
    · refine ⟨setLotValues nm q avg cost curr exch l,
        List.mem_map.mpr ⟨l, hl, by rw [if_pos hmk]⟩, ?_⟩
      unfold matchGK at hm ⊢
      rw [matchKey_setLotValues]
      exact hm
    · exact ⟨l, List.mem_map.mpr ⟨l, hl, by rw [if_neg hmk]⟩, hm⟩
  · rw [if_neg hany]
    rw [List.any_eq_true]
    exact ⟨l, List.mem_append_left _ hl, hm⟩

lemma insert_pred_other {k k' : GKey} (hne : k' ≠ k) (lots : List Lot) (nm : String)
    (q : ℤ) (avg cost : ℚ) (curr exch : String) (Q : Lot → Prop)
    (hgood : ∀ l ∈ lots, matchGK k' l = true → Q l) :
    ∀ l ∈ _insert_daily_lot lots k.stock_code nm k.crd_class k.loan_dt k.trade_date
        q avg cost curr exch,
      matchGK k' l = true → Q l := by
  intro l hl hm
  unfold _insert_daily_lot at hl
  by_cases hany : lots.any (matchKey k.stock_code k.crd_class k.loan_dt k.trade_date) = true
  · rw [if_pos hany] at hl
    obtain ⟨x, hx, rfl⟩ := List.mem_map.mp hl
    by_cases hmx : matchKey k.stock_code k.crd_class k.loan_dt k.trade_date x = true
    · exfalso
      rw [if_pos hmx] at hm
      unfold matchGK at hm
      rw [matchKey_setLotValues] at hm
      exact hne (matchGK_inj hm hmx)
    · rw [if_neg hmx] at hm ⊢
      exact hgood x hx hm
  · rw [if_neg hany] at hl
    rcases List.mem_append.mp hl with hold | hnew
    · exact hgood l hold hm
    · exfalso
      rw [List.mem_singleton.mp hnew] at hm
      exact hne (matchGK_newLot hm)

lemma noSellStep_self (trades : List Trade) (k : GKey) (L : List Lot)
    (hb : 0 < buyQtyOf trades k) :
    (noSellStep trades L k).any (matchGK k) = true ∧
    ∀ l ∈ noSellStep trades L k, matchGK k l = true → goodLot trades k l := by
  unfold noSellStep
  rw [if_pos hb]
  exact ⟨insert_any_self k L _ _ _ _ _ _, insert_values_good k L _ _ _ _ _ _⟩

lemma noSellStep_other (trades : List Trade) {k k' : GKey} (hne : k' ≠ k)
    (L : List Lot) (Q : Lot → Prop) (hany : L.any (matchGK k') = true)
    (hgood : ∀ l ∈ L, matchGK k' l = true → Q l) :
    (noSellStep trades L k).any (matchGK k') = true ∧
    ∀ l ∈ noSellStep trades L k, matchGK k' l = true → Q l := by
  unfold noSellStep
  by_cases hb : 0 < buyQtyOf trades k
  · rw [if_pos hb]
    exact ⟨insert_any_other hne L _ _ _ _ _ _ hany,
           insert_pred_other hne L _ _ _ _ _ _ Q hgood⟩
  · rw [if_neg hb]
    exact ⟨hany, hgood⟩

lemma fold_preserve (trades : List Trade) (ks : List GKey) (k' : GKey)
    (hnotin : k' ∉ ks) (L : List Lot) (Q : Lot → Prop)
    (hany : L.any (matchGK k') = true)
    (hgood : ∀ l ∈ L, matchGK k' l = true → Q l) :
    (ks.foldl (noSellStep trades) L).any (matchGK k') = true ∧
    ∀ l ∈ ks.foldl (noSellStep trades) L, matchGK k' l = true → Q l := by
  induction ks generalizing L with
  | nil => exact ⟨hany, hgood⟩
  | cons k0 ks ih =>
    simp only [List.foldl_cons]
    have hne : k' ≠ k0 := fun h => hnotin (h ▸ List.mem_cons_self k0 ks)
    obtain ⟨h1, h2⟩ := noSellStep_other trades hne L Q hany hgood
    exact ih (fun h => hnotin (List.mem_cons_of_mem k0 h)) _ h1 h2

lemma run_establishes (trades : List Trade) :
    ∀ (ks : List GKey) (L : List Lot), ks.Nodup → ∀ k ∈ ks, 0 < buyQtyOf trades k →
    (ks.foldl (noSellStep trades) L).any (matchGK k) = true ∧
    ∀ l ∈ ks.foldl (noSellStep trades) L, matchGK k l = true → goodLot trades k l := by
  intro ks
  induction ks with
  | nil => exact fun L _ k hk _ => absurd hk (by simp)
  | cons k0 ks ih =>
    intro L hnodup k hk hb
    simp only [List.foldl_cons]
    rcases List.mem_cons.mp hk with rfl | hk'
    · obtain ⟨h1, h2⟩ := noSellStep_self trades k L hb
      exact fold_preserve trades ks k (List.nodup_cons.mp hnodup).1 _ _ h1 h2
    · exact ih _ (List.nodup_cons.mp hnodup).2 k hk' hb

lemma noSellStep_id (trades : List Trade) (k : GKey) (L : List Lot)
    (hb : 0 < buyQtyOf trades k) (hany : L.any (matchGK k) = true)
    (hgood : ∀ l ∈ L, matchGK k l = true → goodLot trades k l) :
    noSellStep trades L k = L := by
  unfold noSellStep
  rw [if_pos hb]
  unfold _insert_daily_lot
  unfold matchGK at hany
  rw [if_pos hany]
  have hmap : ∀ l ∈ L,
      (if matchKey k.stock_code k.crd_class k.loan_dt k.trade_date l = true then
        setLotValues (stockNameOf trades k) (buyQtyOf trades k)
          (avgBuyPriceOf trades k)
          (avgBuyPriceOf trades k * ((buyQtyOf trades k : ℤ) : ℚ))
          (currencyOf trades k) (exchangeOf trades k) l
      else l) = l := by
    intro l hl
    by_cases hm : matchKey k.stock_code k.crd_class k.loan_dt k.trade_date l = true
    · rw [if_pos hm]
      exact hgood l hl hm
    · rw [if_neg hm]
  calc L.map _ = L.map id := List.map_congr_left hmap
  _ = L := List.map_id L

lemma fold_id (trades : List Trade) (ks : List GKey) (L : List Lot)
    (hid : ∀ k ∈ ks, noSellStep trades L k = L) :
    ks.foldl (noSellStep trades) L = L := by
  induction ks with
  | nil => rfl
  | cons k0 ks ih =>
    simp only [List.foldl_cons]
    rw [hid k0 (by simp)]
    exact ih (fun k hk => hid k (by simp [hk]))

lemma processGroup_no_sell (trades : List Trade)
    (h : ∀ t ∈ trades, _is_sell t.io_tp_nm = false) (st : LedgerState) (k : GKey) :
    (processGroup st trades k).lots = noSellStep trades st.lots k := by
  have hs : sellsOf trades k = [] := by
    unfold sellsOf
    apply List.filter_eq_nil_iff.mpr
    intro t ht
    have := h t (List.mem_of_mem_filter ht)
    simp [this]
  have hq : sellQtyOf trades k = 0 := by unfold sellQtyOf; rw [hs]; rfl
  simp only [processGroup, hq, lt_self_iff_false, and_false, if_false, sub_zero]
  simp only [finishGroup, noSellStep]
  by_cases hb : 0 < buyQtyOf trades k
  · rw [if_pos hb, if_pos hb]
  · rw [if_neg hb, if_neg hb]
    split_ifs <;> rfl

lemma construct_lots_no_sell (trades : List Trade)
    (h : ∀ t ∈ trades, _is_sell t.io_tp_nm = false) (st : LedgerState) :
    (construct_daily_lots st trades).lots =
      (firstKeys trades).foldl (noSellStep trades) st.lots := by
  unfold construct_daily_lots
  generalize firstKeys trades = ks
  induction ks generalizing st with
  | nil => rfl
  | cons k0 ks ih =>
    simp only [List.foldl_cons]
    rw [ih (processGroup st trades k0), processGroup_no_sell trades h st k0]

lemma firstKeys_nodup (trades : List Trade) : (firstKeys trades).Nodup := by
  induction trades with
  | nil => exact List.nodup_nil
  | cons t ts ih =>
    simp only [firstKeys]
    refine List.Nodup.cons ?_ (ih.filter _)
    intro hmem
    have := List.of_mem_filter hmem
    simp at this

/-- C6 (amended): rebuilding a sell-free trade set is idempotent — a second
run over the lot state left by the first (empty-state) run recomputes every
group's net buy and upserts the values each lot already has, leaving the lots
unchanged. -/
theorem rebuild_idempotent_without_sells (trades : List Trade)
    (hnosell : ∀ t ∈ trades, _is_sell t.io_tp_nm = false) :
    (construct_daily_lots
        ⟨(construct_daily_lots ⟨[], [], []⟩ trades).lots, [], []⟩ trades).lots =
      (construct_daily_lots ⟨[], [], []⟩ trades).lots := by
  have hfold : ∀ k ∈ firstKeys trades,
      noSellStep trades ((firstKeys trades).foldl (noSellStep trades) []) k =
        (firstKeys trades).foldl (noSellStep trades) [] := by
    intro k hk
    by_cases hb : 0 < buyQtyOf trades k
    · obtain ⟨hany, hgood⟩ := run_establishes trades (firstKeys trades) []
        (firstKeys_nodup trades) k hk hb
      exact noSellStep_id trades k _ hb hany hgood
    · unfold noSellStep
      rw [if_neg hb]
  calc (construct_daily_lots
          ⟨(construct_daily_lots ⟨[], [], []⟩ trades).lots, [], []⟩ trades).lots
      = (firstKeys trades).foldl (noSellStep trades)
          ((construct_daily_lots ⟨[], [], []⟩ trades).lots) :=
        construct_lots_no_sell trades hnosell _
    _ = (firstKeys trades).foldl (noSellStep trades)
          ((firstKeys trades).foldl (noSellStep trades) []) := by
        rw [construct_lots_no_sell trades hnosell ⟨[], [], []⟩]
    _ = (firstKeys trades).foldl (noSellStep trades) [] :=
        fold_id trades (firstKeys trades) _ hfold
    _ = (construct_daily_lots ⟨[], [], []⟩ trades).lots :=
        (construct_lots_no_sell trades hnosell ⟨[], [], []⟩).symm

/-- Witness for amended C6: two buy-only days rebuild idempotently. -/
theorem rebuild_idempotent_without_sells_witness :
    (construct_daily_lots
        ⟨(construct_daily_lots ⟨[], [], []⟩
            [⟨"TST", "Test", "해외주식매수", "CASH", "", 1, 10, 100, "USD", "NASD"⟩,
             ⟨"TST", "Test", "해외주식매수", "CASH", "", 2, 5, 110, "USD", "NASD"⟩]).lots,
          [], []⟩
        [⟨"TST", "Test", "해외주식매수", "CASH", "", 1, 10, 100, "USD", "NASD"⟩,
         ⟨"TST", "Test", "해외주식매수", "CASH", "", 2, 5, 110, "USD", "NASD"⟩]).lots =
      (construct_daily_lots ⟨[], [], []⟩
        [⟨"TST", "Test", "해외주식매수", "CASH", "", 1, 10, 100, "USD", "NASD"⟩,
         ⟨"TST", "Test", "해외주식매수", "CASH", "", 2, 5, 110, "USD", "NASD"⟩]).lots :=
  rebuild_idempotent_without_sells
    [⟨"TST", "Test", "해외주식매수", "CASH", "", 1, 10, 100, "USD", "NASD"⟩,
     ⟨"TST", "Test", "해외주식매수", "CASH", "", 2, 5, 110, "USD", "NASD"⟩]
    (by decide)

/-! ### Empty-state rebuilds reduce only strictly-prior lots (amended C5)

Proof infrastructure: every reduce event names a lot selected by the group's
key, groups are processed in ascending date order, and lots for a key triple
only ever carry the open date of an already-processed group — so from the
empty state, reduced lots are always strictly older than the sell date. -/

lemma reduceSorted_events (sd : ℤ) (sp : ℚ) :
    ∀ (r : ℤ) (L : List Lot), ∀ e ∈ (reduceSorted sd sp r L).2.1,
      e.sell_date = sd ∧ ∃ l ∈ L, e.lot_date = l.trade_date := by
  intro r L
  induction L generalizing r with
  | nil => intro e he; simp [reduceSorted] at he
  | cons l rest ih =>
    intro e he
    by_cases hr : r ≤ 0
    · simp [reduceSorted, if_pos hr] at he
    · by_cases hq : l.net_quantity ≤ r
      · simp only [reduceSorted, if_neg hr, if_pos hq] at he
        rcases List.mem_cons.mp he with rfl | he'
        · exact ⟨rfl, l, by simp, rfl⟩
        · obtain ⟨h1, x, hx, h2⟩ := ih (r - l.net_quantity) e he'
          exact ⟨h1, x, by simp [hx], h2⟩
      · simp only [reduceSorted, if_neg hr, if_neg hq] at he
        rw [List.mem_singleton.mp he]
        exact ⟨rfl, l, by simp, rfl⟩

lemma reduceSorted_lots_keys (sd : ℤ) (sp : ℚ) :
    ∀ (r : ℤ) (L : List Lot), ∀ u ∈ (reduceSorted sd sp r L).1,
      ∃ l ∈ L, u.stock_code = l.stock_code ∧ u.crd_class = l.crd_class ∧
        u.loan_dt = l.loan_dt ∧ u.trade_date = l.trade_date := by
  intro r L
  induction L generalizing r with
  | nil => intro u hu; simp [reduceSorted] at hu
  | cons l rest ih =>
    intro u hu
    by_cases hr : r ≤ 0
    · simp only [reduceSorted, if_pos hr] at hu
      exact ⟨u, hu, rfl, rfl, rfl, rfl⟩
    · by_cases hq : l.net_quantity ≤ r
      · simp only [reduceSorted, if_neg hr, if_pos hq] at hu
        rcases List.mem_cons.mp hu with rfl | hu'
        · exact ⟨l, by simp, rfl, rfl, rfl, rfl⟩
        · obtain ⟨x, hx, h⟩ := ih (r - l.net_quantity) u hu'
          exact ⟨x, by simp [hx], h⟩
      · simp only [reduceSorted, if_neg hr, if_neg hq] at hu
        rcases List.mem_cons.mp hu with rfl | hu'
        · exact ⟨l, by simp, rfl, rfl, rfl, rfl⟩
        · exact ⟨u, by simp [hu'], rfl, rfl, rfl, rfl⟩

lemma reduce_lifo_events (lots : List Lot) (sc cc ld : String) (q sd : ℤ) (sp : ℚ) :
    ∀ e ∈ (_reduce_lots_lifo lots sc cc ld q sd sp).2.1,
      e.sell_date = sd ∧ ∃ l ∈ lots,
        (l.stock_code = sc ∧ l.crd_class = cc ∧ l.loan_dt = ld) ∧
        e.lot_date = l.trade_date := by
  intro e he
  simp only [_reduce_lots_lifo] at he
  obtain ⟨h1, x, hx, h2⟩ := reduceSorted_events sd sp q _ e he
  rw [(List.perm_insertionSort _ _).mem_iff] at hx
  obtain ⟨hxl, hpred⟩ := List.mem_filter.mp hx
  have hp := of_decide_eq_true hpred
  exact ⟨h1, x, hxl, ⟨hp.1, hp.2.1, hp.2.2.1⟩, h2⟩

lemma reduce_lifo_lots_keys (lots : List Lot) (sc cc ld : String) (q sd : ℤ) (sp : ℚ) :
    ∀ u ∈ (_reduce_lots_lifo lots sc cc ld q sd sp).1,
      ∃ l ∈ lots, u.stock_code = l.stock_code ∧ u.crd_class = l.crd_class ∧
        u.loan_dt = l.loan_dt ∧ u.trade_date = l.trade_date := by
  intro u hu
  simp only [_reduce_lots_lifo] at hu
  obtain ⟨l, hl, rfl⟩ := List.mem_map.mp hu
  cases hfind : (reduceSorted sd sp q ((lots.filter (fun l =>
      decide (l.stock_code = sc ∧ l.crd_class = cc ∧ l.loan_dt = ld ∧
        l.is_closed = false ∧ l.trade_date ≤ sd))).insertionSort
      (fun a b => b.trade_date ≤ a.trade_date))).1.find?
      (fun u => u.lot_id == l.lot_id) with
  | none => exact ⟨l, hl, rfl, rfl, rfl, rfl⟩
  | some v =>
    obtain ⟨x, hx, h⟩ := reduceSorted_lots_keys sd sp q _ v
      (List.mem_of_find?_eq_some hfind)
    rw [(List.perm_insertionSort _ _).mem_iff] at hx
    exact ⟨x, List.mem_of_mem_filter hx, h⟩

lemma insert_lots_keys (k : GKey) (lots : List Lot) (nm : String) (q : ℤ)
    (avg cost : ℚ) (curr exch : String) :
    ∀ u ∈ _insert_daily_lot lots k.stock_code nm k.crd_class k.loan_dt k.trade_date
        q avg cost curr exch,
      (∃ l ∈ lots, u.stock_code = l.stock_code ∧ u.crd_class = l.crd_class ∧
        u.loan_dt = l.loan_dt ∧ u.trade_date = l.trade_date) ∨
      (u.stock_code = k.stock_code ∧ u.crd_class = k.crd_class ∧
        u.loan_dt = k.loan_dt ∧ u.trade_date = k.trade_date) := by
  intro u hu
  unfold _insert_daily_lot at hu
  by_cases h : lots.any (matchKey k.stock_code k.crd_class k.loan_dt k.trade_date) = true
  · rw [if_pos h] at hu
    obtain ⟨x, hx, rfl⟩ := List.mem_map.mp hu
    by_cases hm : matchKey k.stock_code k.crd_class k.loan_dt k.trade_date x = true
    · rw [if_pos hm]
      exact Or.inl ⟨x, hx, rfl, rfl, rfl, rfl⟩
    · rw [if_neg hm]
      exact Or.inl ⟨x, hx, rfl, rfl, rfl, rfl⟩
  · rw [if_neg h] at hu
    rcases List.mem_append.mp hu with hold | hnew
    · exact Or.inl ⟨u, hold, rfl, rfl, rfl, rfl⟩
    · rw [List.mem_singleton.mp hnew]
      exact Or.inr ⟨rfl, rfl, rfl, rfl⟩

lemma finishGroup_events (st : LedgerState) (trades : List Trade) (k : GKey)
    (netBuy existingQty : ℤ) :
    (finishGroup st trades k netBuy existingQty).events = st.events := by
  unfold finishGroup
  split_ifs <;> rfl

lemma finishGroup_lots_keys (st : LedgerState) (trades : List Trade) (k : GKey)
    (netBuy existingQty : ℤ) :
    ∀ u ∈ (finishGroup st trades k netBuy existingQty).lots,
      (∃ l ∈ st.lots, u.stock_code = l.stock_code ∧ u.crd_class = l.crd_class ∧
        u.loan_dt = l.loan_dt ∧ u.trade_date = l.trade_date) ∨
      (u.stock_code = k.stock_code ∧ u.crd_class = k.crd_class ∧
        u.loan_dt = k.loan_dt ∧ u.trade_date = k.trade_date) := by
  intro u hu
  unfold finishGroup at hu
  split_ifs at hu with h1 h2
  · exact insert_lots_keys k st.lots _ _ _ _ _ _ u hu
  · exact Or.inl ⟨u, hu, rfl, rfl, rfl, rfl⟩
  · exact Or.inl ⟨u, hu, rfl, rfl, rfl, rfl⟩

lemma processGroup_lots_keys (st : LedgerState) (trades : List Trade) (k : GKey) :
    ∀ u ∈ (processGroup st trades k).lots,
      (∃ l ∈ st.lots, u.stock_code = l.stock_code ∧ u.crd_class = l.crd_class ∧
        u.loan_dt = l.loan_dt ∧ u.trade_date = l.trade_date) ∨
      (u.stock_code = k.stock_code ∧ u.crd_class = k.crd_class ∧
        u.loan_dt = k.loan_dt ∧ u.trade_date = k.trade_date) := by
  intro u hu
  by_cases hc : 0 < _get_existing_lot_quantity st.lots k.stock_code k.crd_class
      k.loan_dt k.trade_date ∧ 0 < sellQtyOf trades k
  · simp only [processGroup, if_pos hc] at hu
    rcases finishGroup_lots_keys _ trades k _ _ u hu with ⟨l, hl, h⟩ | h
    · obtain ⟨x, hx, hx1, hx2, hx3, hx4⟩ :=
        reduce_lifo_lots_keys st.lots k.stock_code k.crd_class k.loan_dt _
          k.trade_date _ l hl
      exact Or.inl ⟨x, hx, h.1.trans hx1, h.2.1.trans hx2, h.2.2.1.trans hx3,
        h.2.2.2.trans hx4⟩
    · exact Or.inr h
  · simp only [processGroup, if_neg hc] at hu
    exact finishGroup_lots_keys st trades k _ _ u hu

lemma processGroup_events (st : LedgerState) (trades : List Trade) (k : GKey) :
    ∀ e ∈ (processGroup st trades k).events,
      e ∈ st.events ∨ (e.sell_date = k.trade_date ∧ ∃ l ∈ st.lots,
        (l.stock_code = k.stock_code ∧ l.crd_class = k.crd_class ∧
          l.loan_dt = k.loan_dt) ∧ e.lot_date = l.trade_date) := by
  intro e he
  by_cases hc : 0 < _get_existing_lot_quantity st.lots k.stock_code k.crd_class
      k.loan_dt k.trade_date ∧ 0 < sellQtyOf trades k
  · simp only [processGroup, if_pos hc, finishGroup_events] at he
    rcases List.mem_append.mp he with h | h
    · exact Or.inl h
    · exact Or.inr (reduce_lifo_events st.lots k.stock_code k.crd_class k.loan_dt
        _ k.trade_date _ e h)
  · simp only [processGroup, if_neg hc, finishGroup_events] at he
    exact Or.inl he

lemma fold_events_lt (trades : List Trade) :
    ∀ (ks : List GKey) (st : LedgerState),
      ks.Pairwise (fun a b => a.stock_code = b.stock_code ∧
        a.crd_class = b.crd_class ∧ a.loan_dt = b.loan_dt →
        a.trade_date < b.trade_date) →
      (∀ l ∈ st.lots, ∀ k ∈ ks, l.stock_code = k.stock_code ∧
        l.crd_class = k.crd_class ∧ l.loan_dt = k.loan_dt →
        l.trade_date < k.trade_date) →
      (∀ e ∈ st.events, e.lot_date < e.sell_date) →
      ∀ e ∈ (ks.foldl (fun s k => processGroup s trades k) st).events,
        e.lot_date < e.sell_date := by
  intro ks
  induction ks with
  | nil => exact fun st _ _ hev e he => hev e he
  | cons k0 ks ih =>
    intro st hpw hinv hev e he
    simp only [List.foldl_cons] at he
    refine ih (processGroup st trades k0) hpw.of_cons ?_ ?_ e he
    · intro u hu k hk htrip
      rcases processGroup_lots_keys st trades k0 u hu with ⟨l, hl, h1, h2, h3, h4⟩ | ⟨h1, h2, h3, h4⟩
      · rw [h4]
        exact hinv l hl k (List.mem_cons_of_mem k0 hk)
          ⟨h1.symm.trans htrip.1, h2.symm.trans htrip.2.1, h3.symm.trans htrip.2.2⟩
      · rw [h4]
        exact (List.pairwise_cons.mp hpw).1 k hk
          ⟨h1.symm.trans htrip.1, h2.symm.trans htrip.2.1, h3.symm.trans htrip.2.2⟩
    · intro e' he'
      rcases processGroup_events st trades k0 e' he' with h | ⟨hsd, l, hl, htrip, hld⟩
      · exact hev e' h
      · rw [hld, hsd]
        exact hinv l hl k0 (List.mem_cons_self k0 ks) htrip

lemma mem_firstKeys {ts : List Trade} {k : GKey} (hk : k ∈ firstKeys ts) :
    ∃ t ∈ ts, tradeKey t = k := by
  induction ts with
  | nil => simp [firstKeys] at hk
  | cons t ts ih =>
    simp only [firstKeys] at hk
    rcases List.mem_cons.mp hk with rfl | hk'
    · exact ⟨t, by simp, rfl⟩
    · obtain ⟨u, hu, h⟩ := ih (List.mem_of_mem_filter hk')
      exact ⟨u, by simp [hu], h⟩

lemma firstKeys_pairwise (trades : List Trade)
    (hs : trades.Pairwise (fun a b => a.trade_date ≤ b.trade_date)) :
    (firstKeys trades).Pairwise (fun a b => a.stock_code = b.stock_code ∧
      a.crd_class = b.crd_class ∧ a.loan_dt = b.loan_dt →
      a.trade_date < b.trade_date) := by
  induction trades with
  | nil => exact List.Pairwise.nil
  | cons t ts ih =>
    obtain ⟨hhead, htail⟩ := List.pairwise_cons.mp hs
    simp only [firstKeys]
    refine List.pairwise_cons.mpr ⟨?_, (ih htail).filter _⟩
    intro k' hk' htrip
    have hne : k' ≠ tradeKey t := by
      have := List.of_mem_filter hk'
      simpa using this
    obtain ⟨u, hu, rfl⟩ := mem_firstKeys (List.mem_of_mem_filter hk')
    have hle : t.trade_date ≤ u.trade_date := hhead u hu
    by_contra hlt
    push_neg at hlt
    have hdeq : (tradeKey t).trade_date = (tradeKey u).trade_date :=
      le_antisymm hle hlt
    apply hne
    unfold tradeKey at htrip hdeq ⊢
    simp only at htrip hdeq
    rw [GKey.mk.injEq]
    exact ⟨htrip.1.symm, htrip.2.1.symm, htrip.2.2.symm, hdeq.symm⟩

/-- C5 (amended): in a rebuild from the empty lot state over date-ordered
trades, every lot reduced or closed by a day's sells was opened strictly
before that day — the `trade_date ≤ sell_date` selection of
`_reduce_lots_lifo` never reaches a same-date lot because none exists when
the reducer runs. -/
theorem empty_rebuild_reduces_only_prior_lots (trades : List Trade)
    (hsorted : trades.Pairwise (fun a b => a.trade_date ≤ b.trade_date)) :
    ∀ e ∈ (construct_daily_lots ⟨[], [], []⟩ trades).events,
      e.lot_date < e.sell_date := by
  unfold construct_daily_lots
  exact fold_events_lt trades (firstKeys trades) ⟨[], [], []⟩
    (firstKeys_pairwise trades hsorted)
    (fun l hl => absurd hl (by simp))
    (fun e he => absurd he (by simp))

/-- Witness for amended C5: in the empty-state run over
`tradesSameDateClose`, the one reduce event hits the day-1 lot on day 2. -/
theorem empty_rebuild_reduces_only_prior_lots_witness :
    (⟨0, 1, 2, false⟩ : ReduceEvent).lot_date <
      (⟨0, 1, 2, false⟩ : ReduceEvent).sell_date :=
  empty_rebuild_reduces_only_prior_lots tradesSameDateClose (by decide)
    ⟨0, 1, 2, false⟩ (by decide)

end AssetUS
